import Mathlib

/-!
Verification of the Delta moment-independent sensitivity analysis core
(SALib `analyze/delta.py`).

The embedding is a direct translation of the Python source into Lean.
Numeric code is modelled over an arbitrary `LinearOrderedField` (exact
arithmetic in place of IEEE floats); the three external scipy/numpy
numeric primitives that produce transcendental values are abstracted as
explicit function parameters:

* `kdeF`  — the finite-sample Gaussian kernel density values produced by
  `scipy.stats.gaussian_kde(sample, bw_method='silverman')`;
* `ppf`   — `scipy.stats.norm.ppf`, the standard normal quantile;
* `sqrtF` — the square root used inside `numpy.ndarray.std`
  (instantiated with `Real.sqrt` on the reals).

Exceptional behaviour of the libraries is modelled explicitly:
`scipy.stats.gaussian_kde` raises `numpy.linalg.LinAlgError` on a dataset
with fewer than two distinct points (singular covariance), modelled by
`Option`; IEEE division by zero inside `numpy.std(ddof=1)` on a length-1
vector and inside `sobol_first` for a constant output vector produces a
non-real NaN/Inf value, modelled by `none`.

Bootstrap randomness (`np.random.randint(len(Y), size=len(Y))`) is
modelled as an explicit stream of index vectors supplied by the caller,
consumed in program order.
-/

namespace SALibDelta

variable {α : Type*} [LinearOrderedField α]

/-- Mean of a vector: models `numpy.ndarray.mean()`. -/
def npMean (l : List α) : α := l.sum / l.length

/-- Population variance (`ddof = 0`): models `numpy.var`. -/
def npVar (l : List α) : α := ((l.map fun x => (x - npMean l) ^ 2).sum) / l.length

/-- Sample standard deviation: models `numpy.ndarray.std(ddof)`.  The square
root is abstracted by `sqrtF`.  When `length ≤ ddof` numpy divides by a
non-positive degree-of-freedom count and the result is NaN (with a runtime
warning), modelled as `none`. -/
def npStd (sqrtF : α → α) (ddof : ℕ) (l : List α) : Option α :=
  if l.length ≤ ddof then none
  else some (sqrtF ((l.map fun x => (x - npMean l) ^ 2).sum / ((l.length : α) - ddof)))

/-- Fancy indexing `a[ix]`: models numpy integer-array indexing. -/
def select (l : List α) (ix : List ℕ) : List α := ix.map fun i => l.getD i 0

/-- Column `i` of a row-major matrix: models `X[:, i]`. -/
def column (X : List (List α)) (i : ℕ) : List α := X.map fun row => row.getD i 0

/-- Models `numpy.linspace(a, b, num)`: `num` points from `a` to `b`
inclusive, equally spaced with step `(b - a) / (num - 1)`. -/
def linspace (a b : α) (num : ℕ) : List α :=
  (List.range num).map fun i : ℕ => a + (i : α) * ((b - a) / ((num : α) - 1))

/-- Models `numpy.min` of a nonempty vector. -/
def npMin (l : List α) : α :=
  match l with
  | [] => 0
  | a :: t => t.foldl min a

/-- Models `numpy.max` of a nonempty vector. -/
def npMax (l : List α) : α :=
  match l with
  | [] => 0
  | a :: t => t.foldl max a

/-- Models `numpy.trapz(ys, xs)`: trapezoidal numerical integration of the
samples `ys` against the abscissae `xs`. -/
def np_trapz (ys xs : List α) : α :=
  ∑ i in Finset.range (xs.length - 1),
    (xs.getD (i + 1) 0 - xs.getD i 0) * (ys.getD i 0 + ys.getD (i + 1) 0) / 2

/-- Models `scipy.stats.rankdata(X, method='ordinal')`: the rank of entry `i`
is one plus the number of entries strictly smaller than it, ties broken by
original position (stable), so ranks are `1..N` with no repeats. -/
def rankdata (X : List α) : List ℕ :=
  (List.range X.length).map fun i =>
    1 + ((List.range X.length).filter fun j =>
      decide (X.getD j 0 < X.getD i 0 ∨ (X.getD j 0 = X.getD i 0 ∧ j < i))).length

/-- Indices of the samples falling in bin `j` of the rank partition:
models `np.where((xr > m[j]) & (xr <= m[j + 1]))[0]` (ascending order). -/
def binIx (xr : List ℕ) (m : List α) (j : ℕ) : List ℕ :=
  (List.range xr.length).filter fun i =>
    decide (m.getD j 0 < (xr.getD i 0 : α) ∧ ((xr.getD i 0 : α)) ≤ m.getD (j + 1) 0)

/-- Models `scipy.stats.gaussian_kde(sample, bw_method='silverman')` evaluated
pointwise.  scipy raises `numpy.linalg.LinAlgError` when the dataset has fewer
than two distinct points (the sample covariance is singular, which also covers
the empty and the singleton dataset); this is modelled as `none`.  The finite
density values themselves are abstracted by `kdeF`. -/
def gaussian_kde (kdeF : List α → α → α) (sample : List α) : Option (α → α) :=
  if 2 ≤ sample.dedup.length then some (kdeF sample) else none

/-- Embedding of `calc_delta(Y, Ygrid, X, m)`, the Plischke et al. (2013)
estimator (eqn 26) for `d_hat`: the full-sample density `fy` over `Ygrid`,
then for each bin `j` of the rank partition the conditional density `fyc` of
the sub-sample `Y[ix]`, accumulating `(nm / (2 N)) * trapz(|fy - fyc|, Ygrid)`.
The Python loop accumulates the per-bin terms left to right into `d_hat`,
which is the sum of the per-bin list built here; a `LinAlgError` raised by
`gaussian_kde` on any degenerate sub-sample aborts the computation (`none`). -/
def calc_delta (kdeF : List α → α → α) (Y Ygrid X m : List α) : Option α :=
  let N := Y.length
  (gaussian_kde kdeF Y).bind fun fy =>
    let xr := rankdata X
    ((List.range (m.length - 1)).mapM fun j =>
      let ix := binIx xr m j
      (gaussian_kde kdeF (select Y ix)).map fun fyc =>
        ((ix.length : α) / (2 * N)) *
          np_trapz (Ygrid.map fun t => |fy t - fyc t|) Ygrid).map List.sum

/-- Embedding of `bias_reduced_delta(Y, Ygrid, X, m, num_resamples, conf_level)`,
the Plischke et al. (2013) bias reduction (eqn 30).  The bootstrap index
vectors (one per resample, each drawn by `np.random.randint(len(Y), size=len(Y))`
in the source) are supplied as the stream `rs`; each is applied jointly to `Y`
and `X`.  Returns `(d.mean(), norm.ppf(0.5 + conf_level / 2) * d.std(ddof=1))`
for `d = 2 * d_hat - resample estimates`, the half-width being `none` (NaN)
when fewer than two resamples were drawn. -/
def bias_reduced_delta (kdeF : List α → α → α) (sqrtF ppf : α → α)
    (Y Ygrid X m : List α) (rs : List (List ℕ)) (conf_level : α) :
    Option (α × Option α) :=
  (calc_delta kdeF Y Ygrid X m).bind fun d_hat =>
    (rs.mapM fun r => calc_delta kdeF (select Y r) Ygrid (select X r) m).map fun d =>
      let d2 := d.map fun x => 2 * d_hat - x
      (npMean d2, (npStd sqrtF 1 d2).map fun s => ppf (1 / 2 + conf_level / 2) * s)

/-- Embedding of `sobol_first(Y, X, m)`: the between-bin variance
`Vi = Σ (nm / N) * (Y[ix].mean() - Y.mean())²` of the rank partition, divided
by the population variance of `Y`.  The source divides by `np.var(Y)` with no
guard; when `Y` is constant this is an IEEE division by zero yielding NaN/Inf
(with only a runtime warning), modelled as `none`. -/
def sobol_first (Y X m : List α) : Option α :=
  let xr := rankdata X
  let N := Y.length
  let Vi := ((List.range (m.length - 1)).map fun j =>
    let ix := binIx xr m j
    ((ix.length : α) / N) * (npMean (select Y ix) - npMean Y) ^ 2).sum
  if npVar Y = 0 then none else some (Vi / npVar Y)

/-- Embedding of `sobol_first_conf(Y, X, m, num_resamples, conf_level)`: the
same bootstrap scheme as `bias_reduced_delta` applied to `sobol_first`,
returning `norm.ppf(0.5 + conf_level / 2) * s.std(ddof=1)`.  A NaN resample
estimate (constant resampled output) or a single resample makes the standard
deviation NaN, modelled as `none`. -/
def sobol_first_conf (sqrtF ppf : α → α) (Y X m : List α)
    (rs : List (List ℕ)) (conf_level : α) : Option α :=
  (rs.mapM fun r => sobol_first (select Y r) (select X r) m).bind fun s =>
    (npStd sqrtF 1 s).map fun sd => ppf (1 / 2 + conf_level / 2) * sd

/-- Number of equal-frequency bins chosen by `analyze`:
`M = min(np.ceil(N ** (2 / (7 + np.tanh((1500 - N) / 500)))), 48)`. -/
noncomputable def bincount (N : ℕ) : ℕ :=
  min ⌈(N : ℝ) ^ ((2 : ℝ) / (7 + Real.tanh ((1500 - (N : ℝ)) / 500)))⌉₊ 48

/-- The two failures the analysis can surface: the explicit
`RuntimeError` for a confidence level outside `[0, 1]` raised by `analyze`
itself, and the `numpy.linalg.LinAlgError` propagated uncaught out of
`scipy.stats.gaussian_kde` on a degenerate bin sub-sample. -/
inductive SAError
  | confLevel
  | linAlg
deriving DecidableEq

/-- Result of `analyze`: the four parallel per-parameter vectors.  Confidence
half-widths and first-order indices may be NaN (`none`) as described above. -/
structure AnalyzeResult (α : Type*) where
  delta : List α
  delta_conf : List (Option α)
  S1 : List (Option α)
  S1_conf : List (Option α)

/-- Embedding of `analyze(problem, X, Y, calc_second_order, num_resamples,
conf_level, print_to_console)`.  `D` is `problem['num_vars']`; parameter names
are reporting-only and not modelled; console printing is I/O and not modelled.
The stream `rand` supplies the successive `np.random.randint(len(Y), size=len(Y))`
draws in program order: parameter `i` consumes draws
`2 * num_resamples * i, ...` first for `bias_reduced_delta` and then
`num_resamples` more for `sobol_first_conf`.  Both boolean flags are accepted
and have no effect on the computation. -/
noncomputable def analyze (kdeF : List α → α → α) (sqrtF ppf : α → α)
    (rand : ℕ → List ℕ) (D : ℕ) (X : List (List α)) (Y : List α)
    (calc_second_order : Bool) (num_resamples : ℕ) (conf_level : α)
    (print_to_console : Bool) : Except SAError (AnalyzeResult α) :=
  let N := Y.length
  if conf_level < 0 ∨ conf_level > 1 then Except.error SAError.confLevel
  else
    let M := bincount N
    let m := linspace (0 : α) (N : α) (M + 1)
    let Ygrid := linspace (npMin Y) (npMax Y) 100
    match (List.range D).mapM (fun i =>
      let Xi := column X i
      let rsD := (List.range num_resamples).map fun k =>
        rand (2 * num_resamples * i + k)
      let rsS := (List.range num_resamples).map fun k =>
        rand (2 * num_resamples * i + num_resamples + k)
      (bias_reduced_delta kdeF sqrtF ppf Y Ygrid Xi m rsD conf_level).map fun dc =>
        (dc.1, dc.2, sobol_first Y Xi m,
          sobol_first_conf sqrtF ppf Y Xi m rsS conf_level)) with
    | none => Except.error SAError.linAlg
    | some rows =>
      Except.ok ⟨rows.map (fun t => t.1), rows.map (fun t => t.2.1),
        rows.map (fun t => t.2.2.1), rows.map (fun t => t.2.2.2)⟩

/-! ### List / Finset bridge lemmas -/

theorem map_sum_eq_sum_range (f : α → α) (l : List α) :
    (l.map f).sum = ∑ i in Finset.range l.length, f (l.getD i 0) := by
  induction l with
  | nil => simp
  | cons a t ih => simp [Finset.sum_range_succ', ih, add_comm]

theorem sum_eq_sum_range (l : List α) :
    l.sum = ∑ i in Finset.range l.length, l.getD i 0 := by
  simpa using map_sum_eq_sum_range id l

theorem sum_map_list_range (G : ℕ → α) (k : ℕ) :
    ((List.range k).map G).sum = ∑ j in Finset.range k, G j := by
  induction k with
  | zero => simp
  | succ n ih => rw [List.range_succ]; simp [ih, Finset.sum_range_succ]

theorem linspace_length (a b : α) (num : ℕ) : (linspace a b num).length = num := by
  simp [linspace]

theorem linspace_getD (a b : α) (num j : ℕ) (h : j < num) :
    (linspace a b num).getD j 0 = a + (j : α) * ((b - a) / ((num : α) - 1)) := by
  have hl : j < (linspace a b num).length := by simpa [linspace_length] using h
  rw [List.getD_eq_getElem _ _ hl]
  simp [linspace]

theorem toFinset_filter_range (n : ℕ) (p : ℕ → Prop) [DecidablePred p] :
    ((List.range n).filter fun j => decide (p j)).toFinset
      = (Finset.range n).filter p := by
  ext x
  simp [List.mem_filter, List.mem_range, Finset.mem_filter, Finset.mem_range]

theorem length_filter_range (n : ℕ) (p : ℕ → Prop) [DecidablePred p] :
    ((List.range n).filter fun j => decide (p j)).length
      = ((Finset.range n).filter p).card := by
  rw [← toFinset_filter_range]
  exact (List.toFinset_card_of_nodup ((List.nodup_range n).filter _)).symm

theorem sum_filter_range (n : ℕ) (p : ℕ → Prop) [DecidablePred p] (f : ℕ → α) :
    (((List.range n).filter fun j => decide (p j)).map f).sum
      = ∑ i in (Finset.range n).filter p, f i := by
  rw [← toFinset_filter_range]
  exact (List.sum_toFinset f ((List.nodup_range n).filter _)).symm

/-! ### Option-valued mapM helpers -/

theorem mapM_length {β γ : Type*} (f : β → Option γ) (l : List β) (ys : List γ)
    (h : l.mapM f = some ys) : ys.length = l.length := by
  rw [← List.mapM'_eq_mapM] at h
  induction l generalizing ys with
  | nil =>
    simp only [List.mapM', Option.pure_def, Option.some.injEq] at h
    simp [← h]
  | cons a t ih =>
    simp only [List.mapM', Option.pure_def, Option.bind_eq_bind] at h
    cases ha : f a with
    | none => rw [ha] at h; simp at h
    | some b =>
      rw [ha] at h
      cases ht : t.mapM' f with
      | none => rw [ht] at h; simp at h
      | some bs =>
        rw [ht] at h
        simp only [Option.some_bind, Option.some.injEq] at h
        simp [← h, ih bs ht]

theorem mapM_isSome {β γ : Type*} (f : β → Option γ) (l : List β) (ys : List γ)
    (h : l.mapM f = some ys) : ∀ b ∈ l, (f b).isSome := by
  rw [← List.mapM'_eq_mapM] at h
  induction l generalizing ys with
  | nil => intro b hb; simp at hb
  | cons a t ih =>
    intro b hb
    simp only [List.mapM', Option.pure_def, Option.bind_eq_bind] at h
    cases ha : f a with
    | none => rw [ha] at h; simp at h
    | some c =>
      rw [ha] at h
      cases ht : t.mapM' f with
      | none => rw [ht] at h; simp at h
      | some bs =>
        rcases List.mem_cons.mp hb with rfl | hbt
        · simp [ha]
        · exact ih bs ht b hbt

theorem mapM_eq_map {β γ : Type*} (f : β → Option γ) (g : β → γ) (l : List β)
    (h : ∀ b ∈ l, f b = some (g b)) : l.mapM f = some (l.map g) := by
  rw [← List.mapM'_eq_mapM]
  induction l with
  | nil => rfl
  | cons a t ih =>
    simp only [List.mapM', Option.pure_def, Option.bind_eq_bind,
      h a (List.mem_cons_self a t), ih fun b hb => h b (List.mem_cons_of_mem a hb),
      Option.some_bind, List.map_cons]

/-! ### Ordinal ranking facts -/

theorem rankdata_length (X : List α) : (rankdata X).length = X.length := by
  simp [rankdata]

theorem rankdata_eq_map_card (X : List α) :
    rankdata X = (List.range X.length).map fun i =>
      1 + ((Finset.range X.length).filter fun j =>
        X.getD j 0 < X.getD i 0 ∨ (X.getD j 0 = X.getD i 0 ∧ j < i)).card := by
  unfold rankdata
  refine List.map_congr_left fun i _ => ?_
  rw [length_filter_range]

/-- Ordinal ranks are a permutation of `1..N`. -/
theorem rankdata_perm (X : List α) : (rankdata X).Perm (List.range' 1 X.length) := by
  set N := X.length with hN
  set c : ℕ → ℕ := fun i =>
    ((Finset.range N).filter fun j =>
      X.getD j 0 < X.getD i 0 ∨ (X.getD j 0 = X.getD i 0 ∧ j < i)).card with hc
  have hPtrans : ∀ i i' j : ℕ,
      (X.getD j 0 < X.getD i 0 ∨ (X.getD j 0 = X.getD i 0 ∧ j < i)) →
      (X.getD i 0 < X.getD i' 0 ∨ (X.getD i 0 = X.getD i' 0 ∧ i < i')) →
      (X.getD j 0 < X.getD i' 0 ∨ (X.getD j 0 = X.getD i' 0 ∧ j < i')) := by
    intro i i' j h1 h2
    rcases h1 with h1 | ⟨h1e, h1l⟩ <;> rcases h2 with h2 | ⟨h2e, h2l⟩
    · exact Or.inl (h1.trans h2)
    · exact Or.inl (lt_of_lt_of_eq h1 h2e)
    · exact Or.inl (lt_of_eq_of_lt h1e h2)
    · exact Or.inr ⟨h1e.trans h2e, h1l.trans h2l⟩
  have hmono : ∀ i i' : ℕ, i < N →
      (X.getD i 0 < X.getD i' 0 ∨ (X.getD i 0 = X.getD i' 0 ∧ i < i')) → c i < c i' := by
    intro i i' hi hlt
    apply Finset.card_lt_card
    rw [Finset.ssubset_def]
    constructor
    · intro j hj
      rw [Finset.mem_filter] at hj ⊢
      exact ⟨hj.1, hPtrans i i' j hj.2 hlt⟩
    · intro hsub
      have hmem : i ∈ (Finset.range N).filter fun j =>
          X.getD j 0 < X.getD i 0 ∨ (X.getD j 0 = X.getD i 0 ∧ j < i) :=
        hsub (Finset.mem_filter.mpr ⟨Finset.mem_range.mpr hi, hlt⟩)
      rcases (Finset.mem_filter.mp hmem).2 with h | ⟨_, h⟩
      · exact lt_irrefl _ h
      · exact lt_irrefl _ h
  have hinj : ∀ i ∈ List.range N, ∀ i' ∈ List.range N, 1 + c i = 1 + c i' → i = i' := by
    intro i hi i' hi' he
    have he' : c i = c i' := Nat.add_left_cancel he
    by_contra hne
    rcases lt_trichotomy (X.getD i 0) (X.getD i' 0) with h | h | h
    · exact absurd he' (Nat.ne_of_lt (hmono i i' (List.mem_range.mp hi) (Or.inl h)))
    · rcases Nat.lt_or_ge i i' with hii | hii
      · exact absurd he' (Nat.ne_of_lt (hmono i i' (List.mem_range.mp hi) (Or.inr ⟨h, hii⟩)))
      · have hii' : i' < i := lt_of_le_of_ne hii fun e => hne e.symm
        exact absurd he'.symm
          (Nat.ne_of_lt (hmono i' i (List.mem_range.mp hi') (Or.inr ⟨h.symm, hii'⟩)))
    · exact absurd he'.symm
        (Nat.ne_of_lt (hmono i' i (List.mem_range.mp hi') (Or.inl h)))
  have hnodup : ((List.range N).map fun i => 1 + c i).Nodup :=
    (List.nodup_range N).map_on hinj
  have hbound : ∀ i, i < N → c i < N := by
    intro i hi
    have hss : ((Finset.range N).filter fun j =>
        X.getD j 0 < X.getD i 0 ∨ (X.getD j 0 = X.getD i 0 ∧ j < i)) ⊂ Finset.range N := by
      refine Finset.filter_ssubset.mpr ⟨i, Finset.mem_range.mpr hi, ?_⟩
      rintro (h | ⟨_, h⟩) <;> exact lt_irrefl _ h
    have := Finset.card_lt_card hss
    rw [Finset.card_range] at this
    exact this
  have hsubset : ((List.range N).map fun i => 1 + c i).toFinset ⊆
      (List.range' 1 N).toFinset := by
    intro x hx
    rw [List.mem_toFinset] at hx ⊢
    rcases List.mem_map.mp hx with ⟨i, hi, rfl⟩
    rw [List.mem_range'_1]
    exact ⟨Nat.le_add_right 1 _, by
      have := hbound i (List.mem_range.mp hi); omega⟩
  have hcard : ((List.range' 1 N).toFinset).card ≤
      ((List.range N).map fun i => 1 + c i).toFinset.card := by
    rw [List.toFinset_card_of_nodup hnodup, List.toFinset_card_of_nodup (List.nodup_range' 1 N)]
    simp
  have htf : ((List.range N).map fun i => 1 + c i).toFinset = (List.range' 1 N).toFinset :=
    Finset.eq_of_subset_of_card_le hsubset hcard
  rw [rankdata_eq_map_card, ← hN]
  exact List.perm_of_nodup_nodup_toFinset_eq hnodup (List.nodup_range' 1 N) htf

/-- Every ordinal rank lies in `1..N`. -/
theorem rankdata_bounds (X : List α) (i : ℕ) (h : i < X.length) :
    1 ≤ (rankdata X).getD i 0 ∧ (rankdata X).getD i 0 ≤ X.length := by
  have hlen : i < (rankdata X).length := by rw [rankdata_length]; exact h
  have hmem : (rankdata X).getD i 0 ∈ rankdata X := by
    rw [List.getD_eq_getElem _ _ hlen]
    exact List.getElem_mem hlen
  have := (rankdata_perm X).mem_iff.mp hmem
  rw [List.mem_range'_1] at this
  omega

/-! ### Bin membership arithmetic -/

/-- The rank interval `(j*N/M, (j+1)*N/M]` contains `A/M` (that is,
`j*N < A ≤ (j+1)*N` after clearing the denominator `M`) iff `j` is the
canonical bin `(A - 1) / N`. -/
theorem bin_div_iff (A N j : ℕ) (hN : 0 < N) (hA : 1 ≤ A) :
    (j * N < A ∧ A ≤ (j + 1) * N) ↔ j = (A - 1) / N := by
  have he : (j + 1) * N = j * N + N := by ring
  constructor
  · rintro ⟨ha, hb⟩
    symm
    exact Nat.div_eq_of_lt_le (by omega) (by omega)
  · intro hjv
    have hdm := Nat.div_add_mod (A - 1) N
    have hc : N * ((A - 1) / N) = ((A - 1) / N) * N := Nat.mul_comm _ _
    rw [hc, ← hjv] at hdm
    have hmlt : (A - 1) % N < N := Nat.mod_lt _ hN
    omega

/-- A rank `r ∈ 1..N` lies in bin `j < M` of the equal-frequency partition
`m = linspace 0 N (M+1)` iff `j` is the canonical bin `(r * M - 1) / N`. -/
theorem mem_bin_iff (N M r j : ℕ) (hM : 0 < M) (hr1 : 1 ≤ r) (hrN : r ≤ N)
    (hj : j < M) :
    ((linspace (0:α) (N:α) (M+1)).getD j 0 < (r:α) ∧
      (r:α) ≤ (linspace (0:α) (N:α) (M+1)).getD (j+1) 0)
      ↔ j = (r * M - 1) / N := by
  have hN : 0 < N := hr1.trans hrN
  have hMα : (0:α) < (M:α) := by exact_mod_cast hM
  have hg : ∀ k : ℕ, k < M + 1 →
      (linspace (0:α) (N:α) (M+1)).getD k 0 = ((k * N : ℕ) : α) / (M:α) := by
    intro k hk
    rw [linspace_getD _ _ _ _ hk]
    push_cast
    ring
  rw [hg j (by omega), hg (j+1) (by omega)]
  have h1 : (((j * N : ℕ) : α) / (M:α) < (r:α)) ↔ j * N < r * M := by
    rw [div_lt_iff₀ hMα]
    exact_mod_cast Iff.rfl
  have h2 : ((r:α) ≤ (((j+1) * N : ℕ) : α) / (M:α)) ↔ r * M ≤ (j+1) * N := by
    rw [le_div_iff₀ hMα]
    exact_mod_cast Iff.rfl
  rw [h1, h2]
  have hrM : 1 ≤ r * M := Nat.one_le_iff_ne_zero.mpr (Nat.mul_ne_zero (by omega) (by omega))
  exact bin_div_iff (r * M) N j hN hrM

/-! ### Mean, variance, standard deviation, trapezoid lemmas -/

theorem getD_nonneg (l : List α) (i : ℕ) (h : ∀ a ∈ l, 0 ≤ a) : 0 ≤ l.getD i 0 := by
  by_cases hi : i < l.length
  · rw [List.getD_eq_getElem _ _ hi]
    exact h _ (List.getElem_mem hi)
  · rw [List.getD_eq_default _ _ (by omega)]

theorem np_trapz_nonneg (ys xs : List α) (hys : ∀ a ∈ ys, 0 ≤ a)
    (hxs : xs.Chain' (· ≤ ·)) : 0 ≤ np_trapz ys xs := by
  unfold np_trapz
  refine Finset.sum_nonneg fun i hi => ?_
  rw [Finset.mem_range] at hi
  have hstep : xs.getD i 0 ≤ xs.getD (i + 1) 0 := by
    have h1 : i + 1 < xs.length := by omega
    have h0 : i < xs.length := by omega
    rw [List.getD_eq_getElem _ _ h0, List.getD_eq_getElem _ _ h1]
    have := List.chain'_iff_get.mp hxs i (by omega)
    simpa [List.get_eq_getElem] using this
  have hy0 : 0 ≤ ys.getD i 0 := getD_nonneg _ _ hys
  have hy1 : 0 ≤ ys.getD (i + 1) 0 := getD_nonneg _ _ hys
  have : 0 ≤ (xs.getD (i + 1) 0 - xs.getD i 0) * (ys.getD i 0 + ys.getD (i + 1) 0) :=
    mul_nonneg (by linarith) (by linarith)
  linarith

theorem sum_map_const_sub (a : α) (l : List α) :
    (l.map fun x => a - x).sum = l.length * a - l.sum := by
  induction l with
  | nil => simp
  | cons b t ih =>
    simp only [List.map_cons, List.sum_cons, ih, List.length_cons]
    push_cast
    ring

theorem npMean_map_const_sub (a : α) (l : List α) (h : l ≠ []) :
    npMean (l.map fun x => a - x) = a - npMean l := by
  have hlen : (0:α) < l.length := by
    have := List.length_pos.mpr h
    exact_mod_cast this
  unfold npMean
  rw [List.length_map, sum_map_const_sub]
  field_simp
  ring

theorem npStd_map_const_sub (sqrtF : α → α) (a : α) (l : List α) :
    npStd sqrtF 1 (l.map fun x => a - x) = npStd sqrtF 1 l := by
  unfold npStd
  rw [List.length_map]
  by_cases hlen : l.length ≤ 1
  · rw [if_pos hlen, if_pos hlen]
  · have hne : l ≠ [] := by rintro rfl; simp at hlen
    rw [if_neg hlen, if_neg hlen]
    congr 1
    rw [npMean_map_const_sub a _ hne, List.map_map]
    congr 2
    refine congrArg List.sum (List.map_congr_left fun x _ => ?_)
    simp only [Function.comp_apply]
    ring

theorem npVar_nonneg (l : List α) : 0 ≤ npVar l := by
  unfold npVar
  refine div_nonneg (List.sum_nonneg fun x hx => ?_) (by positivity)
  rcases List.mem_map.mp hx with ⟨y, _, rfl⟩
  positivity

theorem npVar_pos (l : List α) (hnc : ∃ a ∈ l, ∃ b ∈ l, a ≠ b) : 0 < npVar l := by
  obtain ⟨a, ha, b, hb, hab⟩ := hnc
  have hne : l ≠ [] := by rintro rfl; simp at ha
  have hy : ∃ y ∈ l, y ≠ npMean l := by
    by_contra hall
    push_neg at hall
    exact hab ((hall a ha).trans (hall b hb).symm)
  obtain ⟨y, hy, hyne⟩ := hy
  obtain ⟨i, hi⟩ := List.mem_iff_get.mp hy
  have hlen : (0:α) < l.length := by
    have := List.length_pos.mpr hne
    exact_mod_cast this
  unfold npVar
  refine div_pos ?_ hlen
  rw [map_sum_eq_sum_range]
  refine Finset.sum_pos' (fun j _ => by positivity) ⟨i.1, Finset.mem_range.mpr i.2, ?_⟩
  have hgd : l.getD i.1 0 = y := by
    rw [List.getD_eq_getElem _ _ i.2, ← hi]
    simp [List.get_eq_getElem]
  rw [hgd]
  have : y - npMean l ≠ 0 := sub_ne_zero_of_ne hyne
  positivity

/-! ### Claim theorems -/

/-- C9: two calls to `analyze` that differ only in the value of the
`calc_second_order` flag (all other inputs and random draws identical)
return identical results — all four vectors `delta`, `delta_conf`, `S1`,
`S1_conf` — so the flag is accepted but has no computational effect. -/
theorem c9_calc_second_order_inert (kdeF : List α → α → α) (sqrtF ppf : α → α)
    (rand : ℕ → List ℕ) (D : ℕ) (X : List (List α)) (Y : List α) (b b' : Bool)
    (num_resamples : ℕ) (conf_level : α) (print_to_console : Bool) :
    analyze kdeF sqrtF ppf rand D X Y b num_resamples conf_level print_to_console
      = analyze kdeF sqrtF ppf rand D X Y b' num_resamples conf_level
          print_to_console :=
  rfl

/-- C7: `analyze` raises the confidence-level `RuntimeError` exactly when
`conf_level` lies strictly outside `[0, 1]`, for every `X` and `Y` (so the
failure precedes and is independent of any computation on the data, and no
partial results are produced); for `conf_level` inside `[0, 1]` this error is
never returned. -/
theorem c7_conf_level_validation (kdeF : List α → α → α) (sqrtF ppf : α → α)
    (rand : ℕ → List ℕ) (D : ℕ) (X : List (List α)) (Y : List α) (b p : Bool)
    (R : ℕ) (c : α) :
    analyze kdeF sqrtF ppf rand D X Y b R c p = Except.error SAError.confLevel
      ↔ (c < 0 ∨ c > 1) := by
  by_cases h : c < 0 ∨ c > 1
  · simp [analyze, h]
  · simp only [analyze]
    rw [if_neg h]
    simp only [h, iff_false]
    split
    · simp
    · simp

/-- C4: the bin count computed by `analyze` is
`min(ceil(N ^ (2 / (7 + tanh((1500 - N) / 500)))), 48)`, an integer in
`[1, 48]`, and the bin boundaries `linspace 0 N (M+1)` are the `M + 1`
equally spaced values `j * (N / M)` running from `0` to `N` inclusive. -/
theorem c4_bincount_and_boundaries (N : ℕ) (hN : 1 ≤ N) :
    bincount N
        = min ⌈(N : ℝ) ^ ((2 : ℝ) / (7 + Real.tanh ((1500 - (N : ℝ)) / 500)))⌉₊ 48 ∧
    1 ≤ bincount N ∧ bincount N ≤ 48 ∧
    (linspace (0:ℝ) (N:ℝ) (bincount N + 1)).length = bincount N + 1 ∧
    (∀ j : ℕ, j ≤ bincount N →
      (linspace (0:ℝ) (N:ℝ) (bincount N + 1)).getD j 0
        = (j : ℝ) * ((N:ℝ) / (bincount N : ℝ))) ∧
    (linspace (0:ℝ) (N:ℝ) (bincount N + 1)).getD 0 0 = 0 ∧
    (linspace (0:ℝ) (N:ℝ) (bincount N + 1)).getD (bincount N) 0 = (N:ℝ) := by
  have hM1 : 1 ≤ bincount N := by
    refine le_min ?_ (by norm_num)
    refine Nat.one_le_ceil_iff.mpr ?_
    refine Real.rpow_pos_of_pos ?_ _
    exact_mod_cast Nat.lt_of_lt_of_le Nat.zero_lt_one hN
  have hMne : ((bincount N : ℕ) : ℝ) ≠ 0 := by
    exact_mod_cast Nat.one_le_iff_ne_zero.mp hM1
  have hgetD : ∀ j : ℕ, j ≤ bincount N →
      (linspace (0:ℝ) (N:ℝ) (bincount N + 1)).getD j 0
        = (j : ℝ) * ((N:ℝ) / (bincount N : ℝ)) := by
    intro j hj
    rw [linspace_getD _ _ _ _ (by omega)]
    push_cast
    ring
  refine ⟨rfl, hM1, min_le_right _ _, linspace_length _ _ _, hgetD, ?_, ?_⟩
  · simpa using hgetD 0 (by omega)
  · rw [hgetD _ le_rfl, mul_comm, div_mul_cancel₀ _ hMne]

/-- Closed witness for C4 at the concrete sample size `N = 5`. -/
theorem c4_witness : 1 ≤ bincount 5 ∧ bincount 5 ≤ 48 :=
  ⟨(c4_bincount_and_boundaries 5 (by decide)).2.1,
    (c4_bincount_and_boundaries 5 (by decide)).2.2.1⟩

/-- C6 (failing input): on the constant output vector `Y = [5,5,5,5]` the
source computes `Vi / np.var(Y)` with `np.var(Y) = 0`, an IEEE division by
zero that silently yields a non-real value (modelled `none`); no
"degenerate output distribution" error of any kind is raised. -/
theorem c6_constant_output_silent_nan :
    sobol_first ([5,5,5,5] : List ℚ) [1,2,3,4] (linspace (0:ℚ) 4 3) = none := by
  norm_num [sobol_first, npVar, npMean, rankdata, binIx, linspace, select,
    List.range, List.range.loop, List.filter]

/-- C8 (failing input): on `Y = [1,1,2,2]`, `X = [1,2,3,4]` with the two-bin
partition `[0,2,4]`, bin `0` holds the sub-sample `[1,1]` with a single
distinct value, so `scipy.stats.gaussian_kde` raises a bare
`numpy.linalg.LinAlgError` (modelled `none`): `calc_delta` aborts with no
"degenerate partition" error and no parameter or bin index attached. -/
theorem c8_degenerate_bin_unnamed_failure :
    calc_delta (fun _ _ => (0:ℚ)) [1,1,2,2]
      (linspace (npMin ([1,1,2,2] : List ℚ)) (npMax ([1,1,2,2] : List ℚ)) 100)
      [1,2,3,4] (linspace (0:ℚ) 4 3) = none := by
  have hm : linspace (0:ℚ) 4 3 = [0, 2, 4] := by
    norm_num [linspace, List.range, List.range.loop]
  have hfull : gaussian_kde (fun _ _ => (0:ℚ)) [1, 1, 2, 2]
      = some ((fun _ _ => (0:ℚ)) [1, 1, 2, 2]) := by
    norm_num [gaussian_kde, List.dedup]
  have hxr : rankdata ([1,2,3,4] : List ℚ) = [1, 2, 3, 4] := by
    norm_num [rankdata, List.range, List.range.loop, List.filter]
  have hbin0 : binIx [1, 2, 3, 4] ([0, 2, 4] : List ℚ) 0 = [0, 1] := by
    norm_num [binIx, List.range, List.range.loop, List.filter]
  have hfail : gaussian_kde (fun _ _ => (0:ℚ)) (select [1, 1, 2, 2] [0, 1]) = none := by
    norm_num [gaussian_kde, select, List.dedup]
  simp only [calc_delta, hm, hfull, hxr, Option.some_bind]
  rw [show ([0, 2, 4] : List ℚ).length - 1 = 2 from rfl, ← List.mapM'_eq_mapM]
  simp only [List.range, List.range.loop, List.mapM', hbin0, hfail]
  rfl


theorem gaussian_kde_of_isSome (kdeF : List α → α → α) (s : List α)
    (h : (gaussian_kde kdeF s).isSome) : gaussian_kde kdeF s = some (kdeF s) := by
  unfold gaussian_kde at h ⊢
  by_cases hd : 2 ≤ s.dedup.length
  · rw [if_pos hd]
  · rw [if_neg hd] at h; simp at h

/-- C1: whenever `calc_delta` returns a value `v` (no degenerate bin aborted
the kernel density estimation) and the evaluation grid is sorted ascending (as
the `linspace(min Y, max Y, 100)` grid built by `analyze` always is), `v` is
exactly the sum over bins `j` of `(|bin j| / (2N))` times the trapezoidal
integral over `Ygrid` of `|fy - fy_c|`, where `fy` is the density estimate of
the full sample `Y` and `fy_c` the one of the sub-sample `Y[bin j]`, and this
single scalar is non-negative. -/
theorem c1_calc_delta_sum_nonneg (kdeF : List α → α → α) (Y Ygrid X m : List α)
    (v : α) (hg : Ygrid.Chain' (· ≤ ·))
    (h : calc_delta kdeF Y Ygrid X m = some v) :
    v = (∑ j in Finset.range (m.length - 1),
      ((binIx (rankdata X) m j).length : α) / (2 * Y.length) *
        np_trapz (Ygrid.map fun t =>
          |kdeF Y t - kdeF (select Y (binIx (rankdata X) m j)) t|) Ygrid) ∧
    0 ≤ v := by
  simp only [calc_delta] at h
  cases hY : gaussian_kde kdeF Y with
  | none => rw [hY] at h; simp at h
  | some fy =>
    rw [hY, Option.some_bind] at h
    have hfy : fy = kdeF Y := by
      have h2 := gaussian_kde_of_isSome kdeF Y (by rw [hY]; rfl)
      rw [hY] at h2
      exact Option.some_inj.mp h2
    subst hfy
    obtain ⟨ys, hys, hsum⟩ := Option.map_eq_some'.mp h
    have hFj : ∀ j ∈ List.range (m.length - 1),
        ((gaussian_kde kdeF (select Y (binIx (rankdata X) m j))).map fun fyc =>
          ((binIx (rankdata X) m j).length : α) / (2 * (Y.length : α)) *
            np_trapz (Ygrid.map fun t => |kdeF Y t - fyc t|) Ygrid)
          = some (((binIx (rankdata X) m j).length : α) / (2 * (Y.length : α)) *
              np_trapz (Ygrid.map fun t =>
                |kdeF Y t - kdeF (select Y (binIx (rankdata X) m j)) t|) Ygrid) := by
      intro j hj
      have hs := mapM_isSome _ _ _ hys j hj
      cases hk : gaussian_kde kdeF (select Y (binIx (rankdata X) m j)) with
      | none => rw [hk] at hs; simp at hs
      | some f =>
        have hf := gaussian_kde_of_isSome kdeF _ (by rw [hk]; rfl)
        rw [hk] at hf
        rw [Option.map_some', Option.some_inj.mp hf]
    have hmap := mapM_eq_map _ _ _ hFj
    rw [hmap] at hys
    have hys' := Option.some_inj.mp hys
    subst hys'
    rw [sum_map_list_range] at hsum
    constructor
    · exact hsum.symm
    · rw [← hsum]
      refine Finset.sum_nonneg fun j _ => ?_
      refine mul_nonneg (div_nonneg (by positivity) (by positivity)) ?_
      refine np_trapz_nonneg _ _ (fun a ha => ?_) hg
      rcases List.mem_map.mp ha with ⟨t, _, rfl⟩
      exact abs_nonneg _


/-- C2: `bias_reduced_delta` computes the point estimate `d_hat` via
`calc_delta` on the original data, applies each bootstrap index vector
jointly to `Y` and `X_col` (preserving the input/output pairing) to obtain
the resample estimates `ds`, and returns the pair
`(2 * d_hat - mean ds, z(c) * std(ds, ddof=1))` with
`z(c) = ppf(0.5 + c/2)` the two-sided normal quantile — the source stores
`2 * d_hat - ds` elementwise and takes its mean and standard deviation,
which this theorem shows equals the claimed pair. -/
theorem c2_bias_reduced_delta_spec (kdeF : List α → α → α) (sqrtF ppf : α → α)
    (Y Ygrid X m : List α) (rs : List (List ℕ)) (c : α) (dh : α) (ds : List α)
    (h0 : rs ≠ [])
    (h1 : calc_delta kdeF Y Ygrid X m = some dh)
    (h2 : rs.mapM (fun r => calc_delta kdeF (select Y r) Ygrid (select X r) m)
      = some ds) :
    bias_reduced_delta kdeF sqrtF ppf Y Ygrid X m rs c
      = some (2 * dh - npMean ds,
          (npStd sqrtF 1 ds).map fun s => ppf (1 / 2 + c / 2) * s) := by
  have hds : ds ≠ [] := by
    intro he
    apply h0
    have hl := mapM_length _ _ _ h2
    rw [he] at hl
    simpa using List.length_eq_zero.mp hl.symm
  simp only [bias_reduced_delta, h1, h2, Option.some_bind, Option.map_some']
  rw [npMean_map_const_sub (2 * dh) ds hds, npStd_map_const_sub]

/-- C10: with `num_resamples = 1` the `ddof=1` standard deviation in both
confidence half-width computations divides by `n - 1 = 0`, so `delta_conf`
and `S1_conf` are NaN (modelled `none`) rather than real numbers: whenever
the bootstrap legs themselves succeed, the returned half-width is `none`
exactly when fewer than two resamples were drawn. -/
theorem c10_conf_nan_iff_single_resample (kdeF : List α → α → α) (sqrtF ppf : α → α)
    (Y Ygrid X m : List α) (rs rs2 : List (List ℕ)) (c : α) (pr : α × Option α)
    (ss : List α)
    (hb : bias_reduced_delta kdeF sqrtF ppf Y Ygrid X m rs c = some pr)
    (hs : rs2.mapM (fun r => sobol_first (select Y r) (select X r) m) = some ss) :
    (pr.2 = none ↔ rs.length ≤ 1) ∧
    (sobol_first_conf sqrtF ppf Y X m rs2 c = none ↔ rs2.length ≤ 1) := by
  constructor
  · simp only [bias_reduced_delta] at hb
    cases h1 : calc_delta kdeF Y Ygrid X m with
    | none => rw [h1] at hb; simp at hb
    | some dh =>
      rw [h1, Option.some_bind] at hb
      obtain ⟨d, hd, hpr⟩ := Option.map_eq_some'.mp hb
      have hdl : d.length = rs.length := mapM_length _ _ _ hd
      have hpr2 : pr.2 = (npStd sqrtF 1 (d.map fun x => 2 * dh - x)).map
          fun s => ppf (1 / 2 + c / 2) * s := by rw [← hpr]
      rw [hpr2, npStd_map_const_sub]
      unfold npStd
      by_cases hl : d.length ≤ 1
      · rw [if_pos hl]
        simpa using hdl ▸ hl
      · rw [if_neg hl]
        simp only [Option.map_some']
        constructor
        · intro hcontra; simp at hcontra
        · intro hcontra; omega
  · unfold sobol_first_conf
    rw [hs, Option.some_bind]
    have hsl : ss.length = rs2.length := mapM_length _ _ _ hs
    unfold npStd
    by_cases hl : ss.length ≤ 1
    · rw [if_pos hl]
      simpa using hsl ▸ hl
    · rw [if_neg hl]
      simp only [Option.map_some']
      constructor
      · intro hcontra; simp at hcontra
      · intro hcontra; omega


/-- Concrete evaluation: the two-point sample with one bin succeeds. -/
theorem eval_calc_delta_simple :
    calc_delta (fun _ _ => (1:ℚ)) [1, 2] [1, 2] [1, 2] [0, 2] = some 0 := by
  have hfull : gaussian_kde (fun _ _ => (1:ℚ)) [1, 2]
      = some ((fun _ _ => (1:ℚ)) [1, 2]) := by
    norm_num [gaussian_kde, List.dedup]
  have hxr : rankdata ([1, 2] : List ℚ) = [1, 2] := by
    norm_num [rankdata, List.range, List.range.loop, List.filter]
  have hbin : binIx [1, 2] ([0, 2] : List ℚ) 0 = [0, 1] := by
    norm_num [binIx, List.range, List.range.loop, List.filter]
  have hsel : select ([1, 2] : List ℚ) [0, 1] = [1, 2] := by norm_num [select]
  have hsub : gaussian_kde (fun _ _ => (1:ℚ)) (select ([1, 2] : List ℚ) [0, 1])
      = some ((fun _ _ => (1:ℚ)) [1, 2]) := by
    rw [hsel]
    norm_num [gaussian_kde, List.dedup]
  simp only [calc_delta, hfull, Option.some_bind, hxr]
  rw [show (([0, 2] : List ℚ).length - 1) = 1 from rfl, ← List.mapM'_eq_mapM]
  simp only [List.range, List.range.loop, List.mapM', hbin, hsub, Option.map_some',
    Option.some_bind, Option.pure_def]
  norm_num [np_trapz, Finset.sum_range_one]

theorem eval_sobol_first_simple : sobol_first ([1, 2] : List ℚ) [1, 2] [0, 2] = some 0 := by
  norm_num [sobol_first, npVar, npMean, rankdata, binIx, select,
    List.range, List.range.loop, List.filter]

/-- Closed witness for C1 at a concrete two-point sample with one bin. -/
theorem c1_witness : ([1, 2] : List ℚ).Chain' (· ≤ ·) ∧ (0:ℚ) ≤ 0 :=
  ⟨by norm_num [List.chain'_cons], 
    (c1_calc_delta_sum_nonneg (fun _ _ => (1:ℚ)) [1, 2] [1, 2] [1, 2] [0, 2] 0
      (by norm_num [List.chain'_cons]) eval_calc_delta_simple).2⟩

/-- Closed witness for C2: two identity resamples on the two-point sample. -/
theorem c2_witness :
    bias_reduced_delta (fun _ _ => (1:ℚ)) (fun x => x) (fun x => x) [1, 2] [1, 2]
        [1, 2] [0, 2] [[0, 1], [0, 1]] 0
      = some (2 * 0 - npMean [0, 0],
          (npStd (fun x => x) 1 [0, 0]).map fun s => (fun x => x) ((1:ℚ) / 2 + 0 / 2) * s) := by
  have h2 : ([[0, 1], [0, 1]] : List (List ℕ)).mapM
      (fun r => calc_delta (fun _ _ => (1:ℚ)) (select [1, 2] r) [1, 2] (select [1, 2] r) [0, 2])
      = some [0, 0] := by
    have hsel : select ([1, 2] : List ℚ) [0, 1] = [1, 2] := by norm_num [select]
    rw [← List.mapM'_eq_mapM]
    simp only [List.mapM', hsel, eval_calc_delta_simple, Option.some_bind, Option.pure_def]
    rfl
  exact c2_bias_reduced_delta_spec (fun _ _ => (1:ℚ)) (fun x => x) (fun x => x)
    [1, 2] [1, 2] [1, 2] [0, 2] [[0, 1], [0, 1]] 0 0 [0, 0] (by simp)
    eval_calc_delta_simple h2

/-- Closed witness for C10: a single bootstrap resample yields `none` (NaN)
confidence half-widths. -/
theorem c10_witness :
    ((((0:ℚ), (none : Option ℚ)).2 = none) ↔ ([[0, 1]] : List (List ℕ)).length ≤ 1) ∧
    (sobol_first_conf (fun x => x) (fun x => x) ([1, 2] : List ℚ) [1, 2] [0, 2] [[0, 1]] 0
        = none ↔ ([[0, 1]] : List (List ℕ)).length ≤ 1) := by
  have hb : bias_reduced_delta (fun _ _ => (1:ℚ)) (fun x => x) (fun x => x) [1, 2] [1, 2]
      [1, 2] [0, 2] [[0, 1]] 0 = some ((0:ℚ), (none : Option ℚ)) := by
    have hsel : select ([1, 2] : List ℚ) [0, 1] = [1, 2] := by norm_num [select]
    have h2 : ([[0, 1]] : List (List ℕ)).mapM
        (fun r => calc_delta (fun _ _ => (1:ℚ)) (select [1, 2] r) [1, 2] (select [1, 2] r) [0, 2])
        = some [0] := by
      rw [← List.mapM'_eq_mapM]
      simp only [List.mapM', hsel, eval_calc_delta_simple, Option.some_bind, Option.pure_def]
      rfl
    simp only [bias_reduced_delta, eval_calc_delta_simple, h2, Option.some_bind,
      Option.map_some', List.map_cons, List.map_nil]
    norm_num [npMean, npStd]
  have hs : ([[0, 1]] : List (List ℕ)).mapM
      (fun r => sobol_first (select ([1, 2] : List ℚ) r) (select [1, 2] r) [0, 2])
      = some [0] := by
    have hsel : select ([1, 2] : List ℚ) [0, 1] = [1, 2] := by norm_num [select]
    rw [← List.mapM'_eq_mapM]
    simp only [List.mapM', hsel, eval_sobol_first_simple, Option.some_bind, Option.pure_def]
    rfl
  exact c10_conf_nan_iff_single_resample (fun _ _ => (1:ℚ)) (fun x => x) (fun x => x)
    [1, 2] [1, 2] [1, 2] [0, 2] [[0, 1]] [[0, 1]] 0 ((0:ℚ), none) [0] hb hs


theorem binDiv_lt (N M r : ℕ) (hM : 0 < M) (hr1 : 1 ≤ r) (hrN : r ≤ N) :
    (r * M - 1) / N < M := by
  have hN : 0 < N := hr1.trans hrN
  have h1 : r * M ≤ N * M := Nat.mul_le_mul_right M hrN
  have hc : N * M = M * N := Nat.mul_comm N M
  have h2 : 1 ≤ r * M := Nat.one_le_iff_ne_zero.mpr (Nat.mul_ne_zero (by omega) (by omega))
  refine (Nat.div_lt_iff_lt_mul hN).mpr ?_
  omega

/-- C3: for `N ≥ M ≥ 1`, ordinal ranking produces a permutation of `1..N`,
and with the equally spaced boundaries `m = linspace 0 N (M+1)` the membership
rule `m[j] < rank ∧ rank ≤ m[j+1]` places every rank `1..N` into exactly one
of the `M` bins: the partition is exhaustive and the bins are pairwise
disjoint. -/
theorem c3_partition_exhaustive_disjoint (N M : ℕ) (X : List ℚ) (hM : 1 ≤ M)
    (hNM : M ≤ N) (hX : X.length = N) :
    (rankdata X).Perm (List.range' 1 N) ∧
    ∀ r : ℕ, 1 ≤ r → r ≤ N →
      ∃! j : ℕ, j < M ∧
        ((linspace (0:ℚ) (N:ℚ) (M+1)).getD j 0 < (r:ℚ) ∧
          (r:ℚ) ≤ (linspace (0:ℚ) (N:ℚ) (M+1)).getD (j+1) 0) := by
  constructor
  · rw [← hX]
    exact rankdata_perm X
  · intro r hr1 hrN
    have hjlt : (r * M - 1) / N < M := binDiv_lt N M r (by omega) hr1 hrN
    refine ⟨(r * M - 1) / N, ⟨hjlt, ?_⟩, ?_⟩
    · exact (mem_bin_iff N M r _ (by omega) hr1 hrN hjlt).mpr rfl
    · intro j hj
      exact (mem_bin_iff N M r j (by omega) hr1 hrN hj.1).mp hj.2

/-- Closed witness for C3: the ranks of `[3,1,4,1]` are a permutation of
`1..4` (ties broken by original order). -/
theorem c3_witness : (rankdata ([3, 1, 4, 1] : List ℚ)).Perm (List.range' 1 4) :=
  (c3_partition_exhaustive_disjoint 4 2 [3, 1, 4, 1] (by decide) (by decide) rfl).1


/-- Between-fiber variance is at most the total variance: for any assignment
`g` of the indices `0..N-1` to `M` fibers, the weighted squared deviations of
the fiber means from `μ` are bounded by the mean squared deviation. -/
theorem fiber_between_le_total (N M : ℕ) (hN : 0 < N) (y : ℕ → α) (g : ℕ → ℕ)
    (hmaps : ∀ i ∈ Finset.range N, g i ∈ Finset.range M) (μ : α) :
    ∑ j in Finset.range M,
      ((((Finset.range N).filter fun i => g i = j).card : α) / (N : α)) *
        ((∑ i in (Finset.range N).filter fun i => g i = j, y i)
            / (((Finset.range N).filter fun i => g i = j).card : α) - μ) ^ 2
      ≤ (∑ i in Finset.range N, (y i - μ) ^ 2) / (N : α) := by
  have hNa : (0:α) < (N : α) := by exact_mod_cast hN
  rw [← Finset.sum_fiberwise_of_maps_to hmaps fun i => (y i - μ) ^ 2, Finset.sum_div]
  refine Finset.sum_le_sum fun j hj => ?_
  set B := (Finset.range N).filter fun i => g i = j with hBdef
  by_cases hcz : B.card = 0
  · rw [Finset.card_eq_zero.mp hcz]
    simp
  · have hn : (0:α) < (B.card : α) := by exact_mod_cast Nat.pos_of_ne_zero hcz
    have hsub : ∑ i in B, (y i - μ) = (∑ i in B, y i) - (B.card : α) * μ := by
      rw [Finset.sum_sub_distrib, Finset.sum_const, nsmul_eq_mul]
    have hmu : (∑ i in B, y i) / (B.card : α) - μ = (∑ i in B, (y i - μ)) / (B.card : α) := by
      rw [hsub]
      field_simp
    have hkey : (∑ i in B, (y i - μ)) ^ 2 ≤ (B.card : α) * ∑ i in B, (y i - μ) ^ 2 :=
      sq_sum_le_card_mul_sum_sq
    rw [hmu, div_mul_eq_mul_div, div_le_div_iff_of_pos_right hNa]
    have hexp : (B.card : α) * ((∑ i in B, (y i - μ)) / (B.card : α)) ^ 2
        = (∑ i in B, (y i - μ)) ^ 2 / (B.card : α) := by
      field_simp
      ring
    rw [hexp, div_le_iff₀ hn]
    calc (∑ i in B, (y i - μ)) ^ 2 ≤ (B.card : α) * ∑ i in B, (y i - μ) ^ 2 := hkey
    _ = (∑ i in B, (y i - μ) ^ 2) * (B.card : α) := by ring


/-- C5: for a non-constant output vector (and any parameter column of the
same length), `sobol_first` returns the sum over bins of
`(|bin| / N) * (mean(Y in bin) - mean(Y))²` divided by the population
variance of `Y`, and every value it returns lies in `[0, 1]` — the exact
arithmetic form of `0 ≤ S1 ≤ 1 + ε`. -/
theorem c5_sobol_first_bounds (Y X : List α) (M : ℕ) (hM : 1 ≤ M)
    (hlen : X.length = Y.length) (hnc : ∃ a ∈ Y, ∃ b ∈ Y, a ≠ b) :
    sobol_first Y X (linspace (0:α) (Y.length : α) (M+1))
      = some ((∑ j in Finset.range M,
          ((binIx (rankdata X) (linspace (0:α) (Y.length : α) (M+1)) j).length : α)
              / (Y.length : α) *
            (npMean (select Y (binIx (rankdata X)
                (linspace (0:α) (Y.length : α) (M+1)) j)) - npMean Y) ^ 2)
          / npVar Y) ∧
    ∀ v : α, sobol_first Y X (linspace (0:α) (Y.length : α) (M+1)) = some v →
      0 ≤ v ∧ v ≤ 1 := by
  have hvar : 0 < npVar Y := npVar_pos Y hnc
  have hNpos : 0 < Y.length := by
    obtain ⟨a, ha, _⟩ := hnc
    exact List.length_pos.mpr (List.ne_nil_of_mem ha)
  have hmlen : (linspace (0:α) ((Y.length : ℕ) : α) (M+1)).length - 1 = M := by
    rw [linspace_length]
    omega
  have hfirst : sobol_first Y X (linspace (0:α) (Y.length : α) (M+1))
      = some ((∑ j in Finset.range M,
          ((binIx (rankdata X) (linspace (0:α) (Y.length : α) (M+1)) j).length : α)
              / (Y.length : α) *
            (npMean (select Y (binIx (rankdata X)
                (linspace (0:α) (Y.length : α) (M+1)) j)) - npMean Y) ^ 2)
          / npVar Y) := by
    simp only [sobol_first]
    rw [if_neg (ne_of_gt hvar), hmlen, sum_map_list_range]
  refine ⟨hfirst, ?_⟩
  intro v hv
  rw [hfirst] at hv
  have hveq : _ = v := Option.some_inj.mp hv
  constructor
  · rw [← hveq]
    refine div_nonneg (Finset.sum_nonneg fun j _ => ?_) (le_of_lt hvar)
    positivity
  · rw [← hveq, div_le_one hvar]
    have hxrlen : (rankdata X).length = Y.length := by rw [rankdata_length, hlen]
    have hrb : ∀ i, i < Y.length →
        1 ≤ (rankdata X).getD i 0 ∧ (rankdata X).getD i 0 ≤ Y.length := by
      intro i hi
      have h := rankdata_bounds X i (by omega)
      rwa [hlen] at h
    have hmaps : ∀ i ∈ Finset.range Y.length,
        ((rankdata X).getD i 0 * M - 1) / Y.length ∈ Finset.range M := by
      intro i hi
      rw [Finset.mem_range] at hi ⊢
      exact binDiv_lt _ _ _ (by omega) (hrb i hi).1 (hrb i hi).2
    have hfiber : ∀ j, j < M →
        (binIx (rankdata X) (linspace (0:α) (Y.length : α) (M+1)) j).toFinset
          = (Finset.range Y.length).filter
              fun i => ((rankdata X).getD i 0 * M - 1) / Y.length = j := by
      intro j hj
      simp only [binIx]
      rw [hxrlen, toFinset_filter_range]
      refine Finset.filter_congr fun i hi => ?_
      rw [Finset.mem_range] at hi
      have hb := hrb i hi
      rw [mem_bin_iff Y.length M ((rankdata X).getD i 0) j (by omega) hb.1 hb.2 hj]
      exact eq_comm
    have hterm : ∀ j ∈ Finset.range M,
        ((binIx (rankdata X) (linspace (0:α) (Y.length : α) (M+1)) j).length : α)
            / (Y.length : α) *
          (npMean (select Y (binIx (rankdata X)
              (linspace (0:α) (Y.length : α) (M+1)) j)) - npMean Y) ^ 2
        = ((((Finset.range Y.length).filter
              fun i => ((rankdata X).getD i 0 * M - 1) / Y.length = j).card : α)
              / (Y.length : α)) *
            ((∑ i in (Finset.range Y.length).filter
                (fun i => ((rankdata X).getD i 0 * M - 1) / Y.length = j), Y.getD i 0)
                / ((((Finset.range Y.length).filter
                  fun i => ((rankdata X).getD i 0 * M - 1) / Y.length = j).card : α))
              - npMean Y) ^ 2 := by
      intro j hj
      rw [Finset.mem_range] at hj
      have hnd : (binIx (rankdata X) (linspace (0:α) (Y.length : α) (M+1)) j).Nodup := by
        simp only [binIx]
        exact (List.nodup_range _).filter _
      have hc : ((binIx (rankdata X) (linspace (0:α) (Y.length : α) (M+1)) j).length : ℕ)
          = (((Finset.range Y.length).filter
              fun i => ((rankdata X).getD i 0 * M - 1) / Y.length = j).card : ℕ) := by
        rw [← List.toFinset_card_of_nodup hnd, hfiber j hj]
      have hs : (select Y (binIx (rankdata X) (linspace (0:α) (Y.length : α) (M+1)) j)).sum
          = ∑ i in (Finset.range Y.length).filter
              (fun i => ((rankdata X).getD i 0 * M - 1) / Y.length = j), Y.getD i 0 := by
        simp only [select]
        rw [← List.sum_toFinset _ hnd, hfiber j hj]
      have hmean : npMean (select Y (binIx (rankdata X)
            (linspace (0:α) (Y.length : α) (M+1)) j))
          = (∑ i in (Finset.range Y.length).filter
              (fun i => ((rankdata X).getD i 0 * M - 1) / Y.length = j), Y.getD i 0)
              / ((((Finset.range Y.length).filter
                fun i => ((rankdata X).getD i 0 * M - 1) / Y.length = j).card : α)) := by
        simp only [npMean, select, List.length_map]
        rw [← hs, hc]
        simp [select]
      rw [hmean, hc]
    rw [Finset.sum_congr rfl hterm]
    have hvar_eq : npVar Y
        = (∑ i in Finset.range Y.length, (Y.getD i 0 - npMean Y) ^ 2) / (Y.length : α) := by
      simp only [npVar]
      rw [map_sum_eq_sum_range]
    rw [hvar_eq]
    exact fiber_between_le_total Y.length M hNpos (fun i => Y.getD i 0)
      (fun i => ((rankdata X).getD i 0 * M - 1) / Y.length) hmaps (npMean Y)


/-- Closed witness for C5 at `Y = X = [1,2,3,4]` with two bins, where the
first-order index evaluates to `4/5`. -/
theorem c5_witness : (0:ℚ) ≤ 4/5 ∧ (4/5 : ℚ) ≤ 1 := by
  have heval : sobol_first ([1,2,3,4] : List ℚ) [1,2,3,4]
      (linspace (0:ℚ) ((([1,2,3,4] : List ℚ).length : ℕ) : ℚ) (2+1)) = some (4/5) := by
    norm_num [sobol_first, npVar, npMean, rankdata, binIx, linspace, select,
      List.range, List.range.loop, List.filter]
  exact (c5_sobol_first_bounds ([1,2,3,4] : List ℚ) [1,2,3,4] 2 (by decide) rfl
    ⟨1, by norm_num, 2, by norm_num, by norm_num⟩).2 (4/5) heval

end SALibDelta







